import Mathlib

/-!
Shallow embedding of the cube-pruning core of the moses decoder:
`branches/mtm2_cube_pruning/moses/src/BitmapContainer.cpp` (the
`BackwardsEdge` / `BitmapContainer` machinery) and the `stack-diversity`
fragment of `moses/StaticData.cpp` (`StaticData::LoadData`).

Scores are modelled as `Int` (only their ordering matters for the
properties below).  Fallible C++ behaviour — null-pointer dereference,
out-of-bounds vector access, failed `assert` — is modelled by `Option`:
`none` means the concrete execution hits undefined behaviour or a crash.
-/

/-- A closed source span `[startPos, endPos]` (`WordsRange` in the decoder). -/
structure WordsRange where
  startPos : Nat
  endPos : Nat
deriving DecidableEq, Repr

/-- Whether position `i` lies inside the span `r`. -/
def inSpan (r : WordsRange) (i : Nat) : Bool :=
  decide (r.startPos ≤ i) && decide (i ≤ r.endPos)

/-- Modelled from the spec: `WordsBitmap` is not under `src/`.  Per §3 it is a
fixed-length bit array of sentence length `N` supporting set-range and an
overlap test with an arbitrary span. -/
structure WordsBitmap where
  bits : List Bool
deriving DecidableEq, Repr

/-- Bit test (out-of-range positions read as uncovered). -/
def WordsBitmap.GetBit (bm : WordsBitmap) (i : Nat) : Bool :=
  bm.bits.getD i false

/-- Modelled from the spec: set every bit of the span (length preserved). -/
def WordsBitmap.SetRange (bm : WordsBitmap) (r : WordsRange) : WordsBitmap :=
  ⟨(List.range bm.bits.length).map (fun i => bm.GetBit i || inSpan r i)⟩

/-- Modelled from the spec: `WordsBitmap::Overlap` tests whether some position
of the span is already covered. -/
def WordsBitmap.Overlap (bm : WordsBitmap) (r : WordsRange) : Bool :=
  (List.range bm.bits.length).any (fun i => inSpan r i && bm.GetBit i)

/-- The span/score data of one translation option (the part of
`TranslationOption` that `Hypothesis::CreateNext` consumes). -/
structure TransOptCore where
  sourceRange : WordsRange
  score : Int
deriving DecidableEq, Repr

/-- A translation option: its own span and score plus the linked-option group
returned by `GetLinkedTransOpts()` (a group that must be applied atomically). -/
structure TranslationOption where
  core : TransOptCore
  linkedTransOpts : List TransOptCore
deriving DecidableEq, Repr

/-- The attributes of a decoder hypothesis used by the cube-pruning code:
its coverage bitmap (`GetWordsBitmap`) and its total score
(`GetTotalScore`). -/
structure Hypothesis where
  wordsBitmap : WordsBitmap
  totalScore : Int
deriving DecidableEq, Repr

/-- Modelled from the spec: `Hypothesis::CreateNext` (and the subsequent
`CalcScore`) are not under `src/`.  Per §4.2, extension yields a hypothesis
whose coverage is the predecessor's coverage united with the option's span and
whose total score accumulates the option's score contribution.  Contextual
feature effects are not modelled; §4.3's monotonicity caveat enters the
theorems below as an explicit hypothesis. -/
def Hypothesis.CreateNext (h : Hypothesis) (o : TransOptCore) : Hypothesis :=
  { wordsBitmap := h.wordsBitmap.SetRange o.sourceRange
    totalScore := h.totalScore + o.score }

/-- Model of a C++ `std::vector`: `size` is the element count that `size()`
reports, while `storage` lists the elements actually written into the
allocated buffer.  `reserve` allocates capacity without changing `size`, and
`std::copy` into `begin()` overwrites buffer slots without inserting, so it
fills `storage` but leaves `size` untouched.  `operator[]` performs no bounds
check: it reads whatever the buffer holds, and reading a slot that was never
written (or never allocated) is undefined behaviour, modelled as `none`. -/
structure CppVector (α : Type) where
  size : Nat
  storage : List α
deriving Repr

/-- Unchecked `operator[]` read at a non-negative index. -/
def CppVector.nth (v : CppVector α) (i : Nat) : Option α :=
  v.storage.get? i

/-- Unchecked `operator[]` read at a C `int` index: a negative index converts
to an enormous `size_t`, far outside any buffer, hence undefined behaviour. -/
def CppVector.atInt (v : CppVector α) (i : Int) : Option α :=
  if 0 ≤ i then v.nth i.toNat else none

/-- Unchecked `operator[]` write; writing outside the buffer is undefined
behaviour. -/
def CppVector.setAt (v : CppVector α) (i : Int) (a : α) : Option (CppVector α) :=
  if 0 ≤ i ∧ i.toNat < v.storage.length then
    some { v with storage := v.storage.set i.toNat a }
  else none

/-- `SquarePosition` = `std::pair<Hypothesis*, std::pair<int,int>>`: a grid
cell `(x, y)` together with the hypothesis built for it (`none` = NULL). -/
structure SquarePosition where
  first : Option Hypothesis
  second : Int × Int
deriving DecidableEq, Repr

/-- Reading `first->GetTotalScore()`: dereferences the stored hypothesis
pointer, undefined behaviour when it is NULL. -/
def spScore? (p : SquarePosition) : Option Int :=
  match p.first with
  | some h => some h.totalScore
  | none => none

/-- Modelled from the spec: the priority-queue type of `BackwardsEdge::m_queue`
lives in the header `BitmapContainer.h`, which is not under `src/`.  Per §4.3
the queue is ordered by total score descending with ties broken by insertion
sequence, so pushing is a stable sorted insert: the new element goes in front
of the first strictly lower-scoring element.  Comparing dereferences the
stored hypothesis pointers, so meeting a NULL hypothesis is undefined
behaviour. -/
def pqGo (p : SquarePosition) (s : Int) : List SquarePosition → Option (List SquarePosition)
  | [] => some [p]
  | q :: qs =>
    match spScore? q with
    | none => none
    | some sq =>
      if s > sq then some (p :: q :: qs)
      else
        match pqGo p s qs with
        | none => none
        | some qs' => some (q :: qs')

/-- `m_queue.push`: see `pqGo`. -/
def pqPush (q : List SquarePosition) (p : SquarePosition) : Option (List SquarePosition) :=
  match spScore? p with
  | none => none
  | some s => pqGo p s q

/-- The state of a `BackwardsEdge` (`BitmapContainer.cpp` lines 9–48).  The
reference to the predecessor container only serves to read its ordered
hypothesis set in the constructor, so the constructor below takes that set
directly; the future-score matrix only feeds `CalcScore`, which is folded
into the modelled `CreateNext`. -/
structure BackwardsEdge where
  m_queue : List SquarePosition
  m_seenPosition : CppVector Bool
  m_inited : Bool
  m_kbest : Nat
  m_kbest_translations : CppVector TranslationOption
  m_kbest_hypotheses : CppVector Hypothesis
deriving Repr

namespace BackwardsEdge

/-- The constructor (`BackwardsEdge::BackwardsEdge`, lines 9–48): the seen
bitmap is `std::vector<bool>(K*K, false)`; the two snapshot vectors are
built by `reserve(k)` followed by `std::copy` into `begin()` with
`k = min(K, available)` — the copy writes `k` elements into the reserved
buffer but inserts nothing, so `size()` remains 0. -/
def construct (hypotheses : List Hypothesis) (translations : List TranslationOption)
    (kbestCubePruning : Nat) : BackwardsEdge :=
  { m_queue := []
    m_seenPosition :=
      { size := kbestCubePruning * kbestCubePruning
        storage := List.replicate (kbestCubePruning * kbestCubePruning) false }
    m_inited := false
    m_kbest := kbestCubePruning
    m_kbest_translations :=
      { size := 0, storage := translations.take (min kbestCubePruning translations.length) }
    m_kbest_hypotheses :=
      { size := 0, storage := hypotheses.take (min kbestCubePruning hypotheses.length) } }

/-- `BackwardsEdge::InvalidSquarePosition` (lines 50–58): the sentinel
`(NULL, (-1, -1))`. -/
def InvalidSquarePosition : SquarePosition :=
  { first := none, second := (-1, -1) }

/-- `BackwardsEdge::SeenPosition` (lines 186–190): reads
`m_seenPosition[m_kbest * x + y]` with no bounds check. -/
def SeenPosition (e : BackwardsEdge) (x y : Int) : Option Bool :=
  e.m_seenPosition.atInt ((e.m_kbest : Int) * x + y)

/-- `BackwardsEdge::CreateHypothesis` (lines 116–137): extend by the option,
then walk the linked group; as soon as the running coverage overlaps a linked
option's span, return NULL, otherwise keep extending. -/
def linkedLoop : Hypothesis → List TransOptCore → Option Hypothesis
  | h, [] => some h
  | h, l :: rest =>
    if h.wordsBitmap.Overlap l.sourceRange then none
    else linkedLoop (h.CreateNext l) rest

/-- See `linkedLoop`. -/
def CreateHypothesis (hypothesis : Hypothesis) (transOpt : TranslationOption) :
    Option Hypothesis :=
  linkedLoop (hypothesis.CreateNext transOpt.core) transOpt.linkedTransOpts

/-- `BackwardsEdge::Enqueue` (lines 139–150): push the new square position,
then set `m_seenPosition[m_kbest * x + y]`. -/
def Enqueue (e : BackwardsEdge) (x y : Int) (hypothesis : Option Hypothesis) :
    Option BackwardsEdge :=
  match pqPush e.m_queue { first := hypothesis, second := (x, y) } with
  | none => none
  | some q =>
    match e.m_seenPosition.setAt ((e.m_kbest : Int) * x + y) true with
    | none => none
    | some seen => some { e with m_queue := q, m_seenPosition := seen }

/-- `BackwardsEdge::Initialize` (lines 83–90): build the `(0,0)` hypothesis
from `*m_kbest_hypotheses[0]` and `*m_kbest_translations[0]`, enqueue it
(whether or not it is NULL), mark `(0,0)` seen, set the flag. -/
def Initialize (e : BackwardsEdge) : Option BackwardsEdge :=
  match e.m_kbest_hypotheses.nth 0 with
  | none => none
  | some h0 =>
    match e.m_kbest_translations.nth 0 with
    | none => none
    | some t0 =>
      match e.Enqueue 0 0 (CreateHypothesis h0 t0) with
      | none => none
      | some e1 =>
        match e1.m_seenPosition.setAt 0 true with
        | none => none
        | some seen => some { e1 with m_seenPosition := seen, m_inited := true }

/-- `BackwardsEdge::Dequeue` (lines 164–184): lazily initialize, then return
the queue top (popping it unless `keepValue`), or the invalid sentinel when
the queue is empty. -/
def Dequeue (e : BackwardsEdge) (keepValue : Bool) : Option (SquarePosition × BackwardsEdge) :=
  match (if e.m_inited then some e else e.Initialize) with
  | none => none
  | some e1 =>
    match e1.m_queue with
    | [] => some (InvalidSquarePosition, e1)
    | top :: rest => some (top, if keepValue then e1 else { e1 with m_queue := rest })

/-- One neighbour probe of `BackwardsEdge::PushSuccessors` (lines 92–107):
read the seen bit for cell `(a, b)`; if unseen, build
`CreateHypothesis(*m_kbest_hypotheses[a], *m_kbest_translations[b])` —
with no bounds check on either subscript — and enqueue it when non-NULL. -/
def tryCell (e : BackwardsEdge) (a b : Int) : Option BackwardsEdge :=
  match e.SeenPosition a b with
  | none => none
  | some true => some e
  | some false =>
    match e.m_kbest_hypotheses.atInt a with
    | none => none
    | some ha =>
      match e.m_kbest_translations.atInt b with
      | none => none
      | some tb =>
        match CreateHypothesis ha tb with
        | some newHypo => e.Enqueue a b (some newHypo)
        | none => some e

/-- `BackwardsEdge::PushSuccessors` (lines 92–107): probe `(x, y+1)` and then
`(x+1, y)`. -/
def PushSuccessors (e : BackwardsEdge) (x y : Int) : Option BackwardsEdge :=
  match e.tryCell x (y + 1) with
  | none => none
  | some e1 => e1.tryCell (x + 1) y

end BackwardsEdge

/-- The state of a `BitmapContainer` (`BitmapContainer.cpp` lines 192–207).
`m_stack` stands for the owning `HypothesisStack`; `HypothesisStack::AddPrune`
is not under `src/`, and for the properties below only the sequence of
admissions matters, so it is modelled (from the spec, §4.5) as recording the
admitted hypotheses in order.  Modelled from the spec: the iteration order of
the edge set `BackwardsEdgeSet` is fixed in the missing header; per §4.4 ties
break by edge insertion order, so the set is modelled as a list in insertion
order. -/
structure BitmapContainer where
  m_bitmap : WordsBitmap
  m_stack : List Hypothesis
  m_kbest : Nat
  m_hypotheses : List Hypothesis
  m_edges : List BackwardsEdge
deriving Repr

namespace BitmapContainer

/-- `BitmapContainer::AddBackwardsEdge` (lines 233–237): register a feeding
edge (insertion order, see the container's doc). -/
def AddBackwardsEdge (c : BitmapContainer) (edge : BackwardsEdge) : BitmapContainer :=
  { c with m_edges := c.m_edges ++ [edge] }

end BitmapContainer

/-- One update of the running best of the edge scan (`bestScore` /
`bestEdge` in lines 253–260): the peeked score at edge index `i` replaces the
accumulator only when strictly greater — `bestScore` starts at `-inf`
(accumulator `none`), so the first edge always wins, and on ties the earlier
edge is kept. -/
def argStep (i : Nat) (s : Int) (acc : Option (Nat × Int)) : Option (Nat × Int) :=
  match acc with
  | none => some (i, s)
  | some (bi, bs) => if s > bs then some (i, s) else some (bi, bs)

/-- The edge-scan loop of `BitmapContainer::FindKBestHypotheses` (lines
252–261): for each edge in turn, peek via `Dequeue(true)` (which lazily
initializes the edge), read `current.first->GetTotalScore()` with no check
against the invalid sentinel, and fold the running best with `argStep`.
Returns the updated edges and the best (index, score). -/
def scanGo : List BackwardsEdge → Nat → Option (Nat × Int) →
    Option (List BackwardsEdge × Option (Nat × Int))
  | [], _, best => some ([], best)
  | e :: rest, i, best =>
    match e.Dequeue true with
    | none => none
    | some (current, e') =>
      match spScore? current with
      | none => none
      | some sc =>
        match scanGo rest (i + 1) (argStep i sc best) with
        | none => none
        | some (rest', bestFinal) => some (e' :: rest', bestFinal)

/-- See `scanGo`. -/
def scanEdges (edges : List BackwardsEdge) : Option (List BackwardsEdge × Option (Nat × Int)) :=
  scanGo edges 0 none

/-- The score the scan reads for one edge: peek, then dereference the peeked
hypothesis pointer. -/
def peekScore? (e : BackwardsEdge) : Option Int :=
  match e.Dequeue true with
  | none => none
  | some (p, _) => spScore? p

/-- The edge state after the scan peeked it (lazy initialization persisted). -/
def peekUpd? (e : BackwardsEdge) : Option BackwardsEdge :=
  (e.Dequeue true).map Prod.snd

/-- The list of scores the scan reads, edge by edge. -/
def peekScoresGo : List BackwardsEdge → Option (List Int)
  | [] => some []
  | e :: rest =>
    match peekScore? e with
    | none => none
    | some s =>
      match peekScoresGo rest with
      | none => none
      | some ss => some (s :: ss)

/-- Pure description of the scan's running best: fold the peeked scores from
index `i`, replacing the accumulator only on a strictly greater score. -/
def argmaxFrom (i : Nat) (acc : Option (Nat × Int)) : List Int → Option (Nat × Int)
  | [] => acc
  | s :: rest => argmaxFrom (i + 1) (argStep i s acc) rest

/-- `BitmapContainer::FindKBestHypotheses` (lines 239–289): return at once on
an empty edge set; scan all edges for the best peeked score (`assert(bestEdge
!= NULL)` modelled by requiring a best index); pop that edge's top; admit the
popped hypothesis via `m_stack.AddPrune` (a NULL hypothesis would be
dereferenced there); finally `PushSuccessors` on the same edge at the popped
coordinates.  One invocation performs exactly this single round. -/
def BitmapContainer.FindKBestHypotheses (c : BitmapContainer) : Option BitmapContainer :=
  if c.m_edges.isEmpty then some c
  else
    match scanEdges c.m_edges with
    | none => none
    | some (_, none) => none
    | some (edges', some (bi, _)) =>
      match edges'.get? bi with
      | none => none
      | some bestEdge =>
        match bestEdge.Dequeue false with
        | none => none
        | some (pos, e2) =>
          match pos.first with
          | none => none
          | some bestHypo =>
            match e2.PushSuccessors pos.second.1 pos.second.2 with
            | none => none
            | some e3 =>
              some { c with m_edges := edges'.set bi e3
                            m_stack := c.m_stack ++ [bestHypo] }

/-- The input types of the decoder (`InputTypeEnum` from the headers; only the
constructors used by `StaticData::LoadData`'s stack-diversity check matter). -/
inductive InputTypeEnum where
  | SentenceInput
  | ConfusionNetworkInput
  | WordLatticeInput
  | TreeInputType
deriving DecidableEq, Repr

/-- The stack-diversity fragment of `StaticData::LoadData`
(`StaticData.cpp` lines 317–329): default the minimum stack diversity to 0;
when the `stack-diversity` parameter is present and non-empty, reject the
configuration (`return false`, modelled as `none`) if the distortion limit
exceeds 15 or the input is a word lattice, and only otherwise scan the
supplied value. -/
def loadDataStackDiversity (params : Option (List Nat)) (m_maxDistortion : Int)
    (m_inputType : InputTypeEnum) : Option Nat :=
  match params with
  | some (v :: _) =>
    if m_maxDistortion > 15 then none
    else if m_inputType = InputTypeEnum.WordLatticeInput then none
    else some v
  | _ => some 0

/-- The grid score of cell `(x, y)` of an edge with hypothesis snapshot `hs`
and translation snapshot `ts`: the total score of the hypothesis cube pruning
composes there (when the snapshot reads and the composition succeed). -/
def gridCell (hs : List Hypothesis) (ts : List TranslationOption) (x y : Nat) : Option Int :=
  match hs.get? x, ts.get? y with
  | some hx, some ty =>
    match BackwardsEdge.CreateHypothesis hx ty with
    | some h => some h.totalScore
    | none => none
  | _, _ => none

/-- `a` is no greater than `b` whenever both are defined. -/
def optLe (a b : Option Int) : Bool :=
  match a, b with
  | some x, some y => decide (x ≤ y)
  | _, _ => true

/-- §4.3's grid-monotonicity assumption, as a checkable predicate: no cell of
the grid scores higher than either of its parents. -/
def gridMonoB (hs : List Hypothesis) (ts : List TranslationOption) : Bool :=
  (List.range hs.length).all fun x =>
    (List.range ts.length).all fun y =>
      optLe (gridCell hs ts (x + 1) y) (gridCell hs ts x y) &&
      optLe (gridCell hs ts x (y + 1)) (gridCell hs ts x y)

/-- One pop–push round on a single edge, exactly as
`BitmapContainer::FindKBestHypotheses` drives the edge it selected: pop via
`Dequeue(false)`, read the popped total score, then `PushSuccessors` at the
popped coordinates.  `none` when the pop yields the invalid sentinel (or a
NULL hypothesis) or a successor probe hits undefined behaviour. -/
def edgeRound (e : BackwardsEdge) : Option (Int × BackwardsEdge) :=
  match e.Dequeue false with
  | none => none
  | some (pos, e1) =>
    match spScore? pos with
    | none => none
    | some s =>
      match e1.PushSuccessors pos.second.1 pos.second.2 with
      | none => none
      | some e2 => some (s, e2)

/-- The total scores of the successive successful pops of an edge, up to `n`
rounds. -/
def edgeRunScores : Nat → BackwardsEdge → List Int
  | 0, _ => []
  | n + 1, e =>
    match edgeRound e with
    | none => []
    | some (s, e') => s :: edgeRunScores n e'

/-- Queue elements are mutually ordered: a later element never outscores an
earlier one (scores read by dereferencing the stored hypotheses). -/
def geScore (p q : SquarePosition) : Prop :=
  ∀ sp sq, spScore? p = some sp → spScore? q = some sq → sq ≤ sp

/-- A queue element that genuinely came from the grid: it sits at natural
coordinates and stores the hypothesis composed for that cell, so its score is
the cell's grid score. -/
def CellElem (hs : List Hypothesis) (ts : List TranslationOption) (r : SquarePosition) : Prop :=
  ∃ xn yn : Nat, r.second = ((xn : Int), (yn : Int)) ∧
    ∃ s : Int, spScore? r = some s ∧ gridCell hs ts xn yn = some s

/-- The invariant cube pruning maintains on an edge's queue: every element is
a genuine grid cell of the edge's snapshots, and the queue is sorted by
score, highest first. -/
def QueueWF (e : BackwardsEdge) : Prop :=
  (∀ p ∈ e.m_queue,
    CellElem e.m_kbest_hypotheses.storage e.m_kbest_translations.storage p) ∧
  e.m_queue.Pairwise geScore

/-- Every queue element's score is at most `B`. -/
def QueueBounded (e : BackwardsEdge) (B : Int) : Prop :=
  ∀ p ∈ e.m_queue, ∀ s, spScore? p = some s → s ≤ B

/-! Concrete inputs used by witnesses and counterexamples. -/

/-- A best predecessor hypothesis over a 2-word sentence, nothing covered. -/
def hA : Hypothesis := ⟨⟨[false, false]⟩, 0⟩

/-- A second-best predecessor hypothesis with the same (empty) coverage. -/
def hB : Hypothesis := ⟨⟨[false, false]⟩, -1⟩

/-- Best translation option for span `(0,0)`, no linked group. -/
def tA : TranslationOption := ⟨⟨⟨0, 0⟩, -1⟩, []⟩

/-- Second-best translation option for span `(0,0)`, no linked group. -/
def tB : TranslationOption := ⟨⟨⟨0, 0⟩, -3⟩, []⟩

/-- An edge built with `K = 2` from a single predecessor hypothesis and a
single translation option. -/
def e2c : BackwardsEdge := BackwardsEdge.construct [hA] [tA] 2

/-- `e2c` right after its `(0,0)` top was popped. -/
def e2cAfterPop : Option BackwardsEdge := (e2c.Dequeue false).map Prod.snd

/-- C1: the claim says the constructed edge's snapshot vectors have logical
size `min(K, available)` because the copies insert.  In the code
(`BackwardsEdge::BackwardsEdge`, lines 29–47) `reserve(k)` allocates without
resizing and `std::copy` into `begin()` writes the `k` elements into the
buffer without inserting, so `size()` stays 0 — at `K = 1` with one option and
one hypothesis available the logical size is 0, not `min(1,1) = 1`; every
element access into the snapshots afterwards reads reserved-but-unconstructed
slots. -/
theorem backwardsEdge_construct_snapshot_size_zero :
    (∀ hs ts k, (BackwardsEdge.construct hs ts k).m_kbest_translations.size = 0 ∧
      (BackwardsEdge.construct hs ts k).m_kbest_hypotheses.size = 0) ∧
    Nat.min 1 [tA].length = 1 ∧
    (BackwardsEdge.construct [hA] [tA] 1).m_kbest_translations.size ≠ Nat.min 1 [tA].length := by
  exact ⟨fun hs ts k => ⟨rfl, rfl⟩, rfl, by decide⟩

/-- C2: the claim says `PushSuccessors(x, y)` builds the neighbour `(x, y+1)`
only when `y+1` is within the translation snapshot's bounds.  The code (lines
92–107) has no bounds check at all: with `K = 2` and a single translation
option, after popping `(0,0)` the call `PushSuccessors(0, 0)` finds `(0,1)`
unseen and immediately reads `m_kbest_translations[1]` although only one
option exists — an out-of-bounds read (modelled `none`), which aborts the
call. -/
theorem pushSuccessors_reads_snapshot_out_of_bounds :
    e2cAfterPop.map (fun e => e.SeenPosition 0 1) = some (some false) ∧
    e2cAfterPop.map (fun e => (e.m_kbest_translations.atInt 1).isSome) = some false ∧
    e2cAfterPop.map (fun e => e.PushSuccessors 0 0) = some none := by
  exact ⟨rfl, rfl, rfl⟩

/-- C10: `StaticData::LoadData` (`StaticData.cpp` lines 317–329) rejects the
configuration whenever `stack-diversity` is supplied together with a
distortion limit above 15 or with word-lattice input — in both cases before
scanning the supplied value — and defaults the minimum stack diversity to 0
when the parameter is absent. -/
theorem loadData_stack_diversity_spec :
    (∀ v vs (md : Int) it, md > 15 →
      loadDataStackDiversity (some (v :: vs)) md it = none) ∧
    (∀ v vs (md : Int),
      loadDataStackDiversity (some (v :: vs)) md InputTypeEnum.WordLatticeInput = none) ∧
    (∀ (md : Int) it, loadDataStackDiversity none md it = some 0) := by
  refine ⟨fun v vs md it h => by simp [loadDataStackDiversity, h], fun v vs md => ?_,
    fun md it => rfl⟩
  by_cases h : md > 15 <;> simp [loadDataStackDiversity, h]

/-- The rejection of C10 at a concrete configuration: `stack-diversity 3` with
distortion limit 20 (and separately with lattice input) is refused. -/
theorem loadData_stack_diversity_witness :
    loadDataStackDiversity (some [3]) 20 InputTypeEnum.SentenceInput = none ∧
    loadDataStackDiversity (some [3]) 10 InputTypeEnum.WordLatticeInput = none :=
  ⟨loadData_stack_diversity_spec.1 3 [] 20 InputTypeEnum.SentenceInput (by decide),
   loadData_stack_diversity_spec.2.1 3 [] 10⟩

/-- A peek on an initialized edge with an empty queue reads the invalid
sentinel, whose hypothesis pointer is NULL, so the score read fails. -/
theorem peekScore_none_of_drained (e : BackwardsEdge)
    (hi : e.m_inited = true) (hq : e.m_queue = []) :
    e.Dequeue true = some (BackwardsEdge.InvalidSquarePosition, e) ∧ peekScore? e = none := by
  have hd : e.Dequeue true = some (BackwardsEdge.InvalidSquarePosition, e) := by
    unfold BackwardsEdge.Dequeue
    rw [hi]
    simp [hq]
  refine ⟨hd, ?_⟩
  unfold peekScore?
  rw [hd]
  rfl

/-- The scan loop dies as soon as any edge's peeked score read fails. -/
theorem scanGo_none_of_mem (edges : List BackwardsEdge) :
    ∀ i acc e, e ∈ edges → peekScore? e = none → scanGo edges i acc = none := by
  induction edges with
  | nil => intro i acc e hmem; exact absurd hmem (List.not_mem_nil e)
  | cons a rest ih =>
    intro i acc e hmem hnone
    rcases List.mem_cons.mp hmem with heq | htail
    · subst heq
      unfold peekScore? at hnone
      unfold scanGo
      cases hda : e.Dequeue true with
      | none => simp
      | some pr =>
        rw [hda] at hnone
        cases pr with
        | mk current e' =>
          simp only [] at hnone
          simp [hnone]
    · unfold scanGo
      cases hda : a.Dequeue true with
      | none => simp
      | some pr =>
        cases pr with
        | mk current e' =>
          cases hsp : spScore? current with
          | none => simp [hsp]
          | some sc => simp [hsp, ih _ _ _ htail hnone]

/-- C3: `BitmapContainer::FindKBestHypotheses` (lines 255–257) reads
`current.first->GetTotalScore()` for every edge without checking the result of
`Dequeue(true)` against the invalid sentinel.  Whenever some edge of the
container is drained (initialized, queue empty) at peek time, its peek returns
the sentinel `(NULL, (-1,-1))`, whose hypothesis pointer is NULL, and the
score read dereferences that null pointer — modelled by the whole invocation
evaluating to `none`. -/
theorem findKBest_drained_edge_null_deref (c : BitmapContainer) (e : BackwardsEdge)
    (hmem : e ∈ c.m_edges) (hi : e.m_inited = true) (hq : e.m_queue = []) :
    e.Dequeue true = some (BackwardsEdge.InvalidSquarePosition, e) ∧
    BackwardsEdge.InvalidSquarePosition.first = none ∧
    c.FindKBestHypotheses = none := by
  obtain ⟨hd, hp⟩ := peekScore_none_of_drained e hi hq
  refine ⟨hd, rfl, ?_⟩
  unfold BitmapContainer.FindKBestHypotheses
  have hne : c.m_edges ≠ [] := List.ne_nil_of_mem hmem
  have hemp : c.m_edges.isEmpty = false := by
    cases hcm : c.m_edges with
    | nil => exact absurd hcm hne
    | cons x xs => rfl
  rw [hemp]
  have hscan : scanEdges c.m_edges = none :=
    scanGo_none_of_mem c.m_edges 0 none e hmem hp
  simp [hscan]

/-- A drained edge: `(0,0)` was consumed and the edge marked initialized with
an empty queue. -/
def eDrained : BackwardsEdge := { BackwardsEdge.construct [hA] [tA] 1 with m_inited := true }

/-- A container holding just the drained edge. -/
def cDrained : BitmapContainer := ⟨⟨[false, false]⟩, [], 1, [hA], [eDrained]⟩

/-- Witness for C3: on the concrete container whose only edge is drained, the
peek yields the NULL-carrying sentinel and the invocation dereferences it. -/
theorem findKBest_drained_edge_null_deref_witness :
    eDrained.Dequeue true = some (BackwardsEdge.InvalidSquarePosition, eDrained) ∧
    BackwardsEdge.InvalidSquarePosition.first = none ∧
    cDrained.FindKBestHypotheses = none :=
  findKBest_drained_edge_null_deref cDrained eDrained (List.mem_singleton_self eDrained) rfl rfl

/-- Applying a sequence of (linked) options one after the other, as the loop
of `BackwardsEdge::CreateHypothesis` does between its overlap checks. -/
def foldApply (h : Hypothesis) (ls : List TransOptCore) : Hypothesis :=
  ls.foldl Hypothesis.CreateNext h

theorem foldApply_cons (h : Hypothesis) (l : TransOptCore) (ls : List TransOptCore) :
    foldApply h (l :: ls) = foldApply (h.CreateNext l) ls := rfl

theorem setRange_length (bm : WordsBitmap) (r : WordsRange) :
    (bm.SetRange r).bits.length = bm.bits.length := by
  simp [WordsBitmap.SetRange]

theorem getBit_lt (bm : WordsBitmap) (i : Nat) (hb : bm.GetBit i = true) :
    i < bm.bits.length := by
  by_contra hlt
  have : bm.GetBit i = false := by
    unfold WordsBitmap.GetBit
    exact List.getD_eq_default _ _ (Nat.le_of_not_lt hlt)
  rw [this] at hb
  exact Bool.false_ne_true hb

theorem getBit_setRange (bm : WordsBitmap) (r : WordsRange) (i : Nat)
    (hi : i < bm.bits.length) :
    (bm.SetRange r).GetBit i = (bm.GetBit i || inSpan r i) := by
  unfold WordsBitmap.SetRange WordsBitmap.GetBit
  rw [List.getD_eq_getElem?_getD, List.getElem?_map, List.getElem?_range hi]
  rfl

theorem createNext_length (h : Hypothesis) (o : TransOptCore) :
    (h.CreateNext o).wordsBitmap.bits.length = h.wordsBitmap.bits.length :=
  setRange_length _ _

theorem foldApply_length (ls : List TransOptCore) :
    ∀ h : Hypothesis, (foldApply h ls).wordsBitmap.bits.length = h.wordsBitmap.bits.length := by
  induction ls with
  | nil => intro h; rfl
  | cons l rest ih =>
    intro h
    rw [foldApply_cons, ih, createNext_length]

theorem createNext_getBit_mono (h : Hypothesis) (o : TransOptCore) (i : Nat)
    (hb : h.wordsBitmap.GetBit i = true) :
    (h.CreateNext o).wordsBitmap.GetBit i = true := by
  have hi := getBit_lt _ _ hb
  show (h.wordsBitmap.SetRange o.sourceRange).GetBit i = true
  rw [getBit_setRange _ _ _ hi, hb, Bool.true_or]

theorem foldApply_getBit_mono (ls : List TransOptCore) :
    ∀ h : Hypothesis, ∀ i : Nat, h.wordsBitmap.GetBit i = true →
      (foldApply h ls).wordsBitmap.GetBit i = true := by
  induction ls with
  | nil => intro h i hb; exact hb
  | cons l rest ih =>
    intro h i hb
    rw [foldApply_cons]
    exact ih _ _ (createNext_getBit_mono h l i hb)

theorem createNext_getBit_span (h : Hypothesis) (o : TransOptCore) (i : Nat)
    (hi : i < h.wordsBitmap.bits.length) (hsp : inSpan o.sourceRange i = true) :
    (h.CreateNext o).wordsBitmap.GetBit i = true := by
  show (h.wordsBitmap.SetRange o.sourceRange).GetBit i = true
  rw [getBit_setRange _ _ _ hi, hsp, Bool.or_true]

theorem foldApply_getBit_span (ls : List TransOptCore) :
    ∀ h : Hypothesis, ∀ l ∈ ls, ∀ i : Nat, i < h.wordsBitmap.bits.length →
      inSpan l.sourceRange i = true → (foldApply h ls).wordsBitmap.GetBit i = true := by
  induction ls with
  | nil => intro h l hl; exact absurd hl (List.not_mem_nil l)
  | cons a rest ih =>
    intro h l hl i hi hsp
    rw [foldApply_cons]
    rcases List.mem_cons.mp hl with heq | htail
    · subst heq
      exact foldApply_getBit_mono rest _ i (createNext_getBit_span h l i hi hsp)
    · exact ih _ l htail i (by rw [createNext_length]; exact hi) hsp

theorem linkedLoop_some (ls : List TransOptCore) :
    ∀ h h' : Hypothesis, BackwardsEdge.linkedLoop h ls = some h' → h' = foldApply h ls := by
  induction ls with
  | nil =>
    intro h h' hres
    unfold BackwardsEdge.linkedLoop at hres
    exact (Option.some_injective _ hres).symm
  | cons l rest ih =>
    intro h h' hres
    unfold BackwardsEdge.linkedLoop at hres
    by_cases hov : h.wordsBitmap.Overlap l.sourceRange = true
    · rw [if_pos hov] at hres; exact absurd hres (Option.noConfusion)
    · rw [if_neg hov] at hres
      rw [foldApply_cons]
      exact ih _ _ hres

theorem linkedLoop_none_iff (ls : List TransOptCore) :
    ∀ h : Hypothesis,
      (BackwardsEdge.linkedLoop h ls = none ↔
        ∃ i l, ls.get? i = some l ∧
          (foldApply h (ls.take i)).wordsBitmap.Overlap l.sourceRange = true ∧
          ∀ j lj, j < i → ls.get? j = some lj →
            (foldApply h (ls.take j)).wordsBitmap.Overlap lj.sourceRange = false) := by
  induction ls with
  | nil =>
    intro h
    simp [BackwardsEdge.linkedLoop]
  | cons l rest ih =>
    intro h
    unfold BackwardsEdge.linkedLoop
    by_cases hov : h.wordsBitmap.Overlap l.sourceRange = true
    · rw [if_pos hov]
      refine iff_of_true rfl ⟨0, l, rfl, ?_, ?_⟩
      · simpa [foldApply] using hov
      · intro j lj hj; exact absurd hj (Nat.not_lt_zero j)
    · rw [if_neg hov]
      rw [ih (h.CreateNext l)]
      constructor
      · rintro ⟨i, l', hget, hovl, hmin⟩
        refine ⟨i + 1, l', by simpa using hget, ?_, ?_⟩
        · simpa [List.take_succ_cons, foldApply_cons] using hovl
        · intro j lj hj hgj
          cases j with
          | zero =>
            simp only [List.get?] at hgj
            cases hgj
            simpa [foldApply] using Bool.not_eq_true _ |>.mp hov
          | succ jj =>
            have hjj : jj < i := Nat.lt_of_succ_lt_succ hj
            have hgjj : rest.get? jj = some lj := by simpa using hgj
            simpa [List.take_succ_cons, foldApply_cons] using hmin jj lj hjj hgjj
      · rintro ⟨i, l', hget, hovl, hmin⟩
        cases i with
        | zero =>
          simp only [List.get?] at hget
          cases hget
          exact absurd (by simpa [foldApply] using hovl) hov
        | succ ii =>
          refine ⟨ii, l', by simpa using hget, ?_, ?_⟩
          · simpa [List.take_succ_cons, foldApply_cons] using hovl
          · intro j lj hj hgj
            have := hmin (j + 1) lj (Nat.succ_lt_succ hj) (by simpa using hgj)
            simpa [List.take_succ_cons, foldApply_cons] using this

/-- C8: `BackwardsEdge::CreateHypothesis` (lines 116–137) is atomic on linked
groups.  It returns NULL exactly when some linked option's span overlaps the
coverage accumulated at the moment that option is applied (first part: the
failing option is reached because no earlier linked option overlapped), and on
success the returned hypothesis is the full sequential application, whose
coverage includes the option's own span and the span of every linked option —
so no hypothesis covering only part of a linked group is ever returned. -/
theorem createHypothesis_linked_atomic :
    (∀ h opt, (BackwardsEdge.CreateHypothesis h opt = none ↔
      ∃ i l, opt.linkedTransOpts.get? i = some l ∧
        (foldApply (h.CreateNext opt.core)
          (opt.linkedTransOpts.take i)).wordsBitmap.Overlap l.sourceRange = true ∧
        ∀ j lj, j < i → opt.linkedTransOpts.get? j = some lj →
          (foldApply (h.CreateNext opt.core)
            (opt.linkedTransOpts.take j)).wordsBitmap.Overlap lj.sourceRange = false)) ∧
    (∀ h opt h', BackwardsEdge.CreateHypothesis h opt = some h' →
      h' = foldApply (h.CreateNext opt.core) opt.linkedTransOpts ∧
      ∀ i, i < h.wordsBitmap.bits.length →
        (inSpan opt.core.sourceRange i = true ∨
          ∃ l ∈ opt.linkedTransOpts, inSpan l.sourceRange i = true) →
        h'.wordsBitmap.GetBit i = true) := by
  constructor
  · intro h opt
    exact linkedLoop_none_iff opt.linkedTransOpts (h.CreateNext opt.core)
  · intro h opt h' hres
    have heq := linkedLoop_some opt.linkedTransOpts _ _ hres
    subst heq
    refine ⟨rfl, ?_⟩
    intro i hi hcov
    have hic : i < (h.CreateNext opt.core).wordsBitmap.bits.length := by
      rw [createNext_length]; exact hi
    rcases hcov with hsp | ⟨l, hl, hsp⟩
    · exact foldApply_getBit_mono opt.linkedTransOpts _ i
        (createNext_getBit_span h opt.core i hi hsp)
    · exact foldApply_getBit_span opt.linkedTransOpts _ l hl i hic hsp

/-- A hypothesis over a 3-word sentence, nothing covered. -/
def hW : Hypothesis := ⟨⟨[false, false, false]⟩, 0⟩

/-- The spec's linked scenario: an option covering `(0,0)` whose linked group
also covers `(2,2)`. -/
def tW : TranslationOption := ⟨⟨⟨0, 0⟩, -1⟩, [⟨⟨2, 2⟩, -1⟩]⟩

/-- The hypothesis the linked extension produces: words 0 and 2 covered. -/
def hWexp : Hypothesis := ⟨⟨[true, false, true]⟩, -2⟩

/-- Witness for C8: on the concrete linked group `(0,0)` + `(2,2)` the
extension succeeds, yields the full application, and covers word 2 (the
linked span), never a partial group. -/
theorem createHypothesis_linked_atomic_witness :
    BackwardsEdge.CreateHypothesis hW tW = some hWexp ∧
    hWexp.wordsBitmap.GetBit 2 = true :=
  ⟨rfl,
    (createHypothesis_linked_atomic.2 hW tW hWexp rfl).2 2 (by decide)
      (Or.inr ⟨⟨⟨2, 2⟩, -1⟩, by decide, by decide⟩)⟩


theorem argStep_spec (i : Nat) (s : Int) (acc : Option (Nat × Int)) :
    ∃ a b, argStep i s acc = some (a, b) ∧ s ≤ b ∧
      (acc = some (a, b) ∨ (a = i ∧ b = s)) ∧
      (∀ a0 b0, acc = some (a0, b0) → b0 ≤ b) := by
  cases acc with
  | none =>
    exact ⟨i, s, rfl, le_refl s, Or.inr ⟨rfl, rfl⟩, fun a0 b0 h => absurd h (by simp)⟩
  | some pr =>
    cases pr with
    | mk a0 b0 =>
      by_cases hgt : s > b0
      · refine ⟨i, s, ?_, le_refl s, Or.inr ⟨rfl, rfl⟩, ?_⟩
        · simp [argStep, if_pos hgt]
        · intro a1 b1 h1
          cases h1
          exact le_of_lt hgt
      · refine ⟨a0, b0, ?_, le_of_not_lt hgt, Or.inl rfl, ?_⟩
        · simp [argStep, if_neg hgt]
        · intro a1 b1 h1
          cases h1
          exact le_refl _

theorem argmaxFrom_someacc (ss : List Int) :
    ∀ i acc r, argmaxFrom i acc ss = some r →
      ∀ a b, acc = some (a, b) → b ≤ r.2 := by
  induction ss with
  | nil =>
    intro i acc r hres a b hacc
    unfold argmaxFrom at hres
    rw [hacc] at hres
    cases hres
    exact le_refl b
  | cons s0 rest ih =>
    intro i acc r hres a b hacc
    unfold argmaxFrom at hres
    obtain ⟨a', b', hstep, _, _, hle⟩ := argStep_spec i s0 acc
    rw [hstep] at hres
    exact le_trans (hle a b hacc) (ih _ _ _ hres a' b' rfl)

theorem argmaxFrom_le (ss : List Int) :
    ∀ i acc r, argmaxFrom i acc ss = some r →
      ∀ j s, ss.get? j = some s → s ≤ r.2 := by
  induction ss with
  | nil => intro i acc r _ j s hget; cases j <;> exact absurd hget (by simp)
  | cons s0 rest ih =>
    intro i acc r hres j s hget
    unfold argmaxFrom at hres
    obtain ⟨a', b', hstep, hs0, _, _⟩ := argStep_spec i s0 acc
    rw [hstep] at hres
    cases j with
    | zero =>
      simp only [List.get?] at hget
      cases hget
      exact le_trans hs0 (argmaxFrom_someacc rest _ _ _ hres a' b' rfl)
    | succ jj =>
      exact ih _ _ _ hres jj s (by simpa using hget)

theorem argmaxFrom_beat (ss : List Int) :
    ∀ i acc r a b, acc = some (a, b) → argmaxFrom i acc ss = some r →
      r = (a, b) ∨ b < r.2 := by
  induction ss with
  | nil =>
    intro i acc r a b hacc hres
    unfold argmaxFrom at hres
    rw [hacc] at hres
    cases hres
    exact Or.inl rfl
  | cons s0 rest ih =>
    intro i acc r a b hacc hres
    unfold argmaxFrom at hres
    subst hacc
    obtain ⟨a', b', hstep, hs0, hor, hle⟩ := argStep_spec i s0 (some (a, b))
    rw [hstep] at hres
    rcases hor with hkeep | ⟨ha', hb'⟩
    · have : a' = a ∧ b' = b := by
        injection hkeep.symm with h1
        exact ⟨congrArg Prod.fst h1, congrArg Prod.snd h1⟩
      obtain ⟨h1, h2⟩ := this
      subst h1; subst h2
      exact ih _ _ _ _ _ rfl hres
    · obtain ⟨ha', hb'⟩ := And.intro ha' hb'
      by_cases hgt : s0 > b
      · have hbb' : b < b' := by rw [hb']; exact hgt
        exact Or.inr (lt_of_lt_of_le hbb' (argmaxFrom_someacc rest _ _ _ hres a' b' rfl))
      · have hstep2 : argStep i s0 (some (a, b)) = some (a, b) := by
          simp [argStep, if_neg hgt]
        rw [hstep2] at hstep
        have hab : a = a' ∧ b = b' := by
          injection hstep with h1
          exact ⟨congrArg Prod.fst h1, congrArg Prod.snd h1⟩
        obtain ⟨h1, h2⟩ := hab
        rw [← h1, ← h2] at hres
        exact ih _ _ _ _ _ rfl hres

theorem argmaxFrom_from (ss : List Int) :
    ∀ i acc r, argmaxFrom i acc ss = some r →
      acc = some r ∨ ∃ k, k < ss.length ∧ r.1 = i + k ∧ ss.get? k = some r.2 := by
  induction ss with
  | nil =>
    intro i acc r hres
    unfold argmaxFrom at hres
    exact Or.inl hres
  | cons s0 rest ih =>
    intro i acc r hres
    unfold argmaxFrom at hres
    obtain ⟨a', b', hstep, _, hor, _⟩ := argStep_spec i s0 acc
    rw [hstep] at hres
    rcases ih _ _ _ hres with hacc | ⟨k, hk, hidx, hget⟩
    · have hr : r = (a', b') := by
        injection hacc with h1
        exact h1.symm
      subst hr
      rcases hor with hkeep | ⟨ha', hb'⟩
      · exact Or.inl hkeep
      · subst ha'; subst hb'
        exact Or.inr ⟨0, by simp, by simp, rfl⟩
    · exact Or.inr ⟨k + 1, by simpa using hk, by omega, by simpa using hget⟩

theorem argmaxFrom_least (ss : List Int) :
    ∀ i acc r, (∀ a b, acc = some (a, b) → a < i) →
      argmaxFrom i acc ss = some r →
      ∀ k s, ss.get? k = some s → i + k < r.1 → s < r.2 := by
  induction ss with
  | nil => intro i acc r _ _ k s hget; cases k <;> exact absurd hget (by simp)
  | cons s0 rest ih =>
    intro i acc r haccOk hres k s hget hlt
    unfold argmaxFrom at hres
    obtain ⟨a', b', hstep, hs0, hor, _⟩ := argStep_spec i s0 acc
    rw [hstep] at hres
    have ha' : a' < i + 1 := by
      rcases hor with hkeep | ⟨hai, _⟩
      · exact Nat.lt_succ_of_lt (haccOk a' b' hkeep)
      · omega
    cases k with
    | zero =>
      simp only [List.get?] at hget
      cases hget
      rcases argmaxFrom_beat rest _ _ _ _ _ rfl hres with hkeep | hstrict
      · rw [hkeep] at hlt
        omega
      · exact lt_of_le_of_lt hs0 hstrict
    | succ kk =>
      have haccOk' : ∀ a b, (some (a', b') : Option (Nat × Int)) = some (a, b) → a < i + 1 := by
        intro a b hab
        injection hab with h1
        have : a = a' := (congrArg Prod.fst h1).symm
        omega
      exact ih _ _ _ haccOk' hres kk s (by simpa using hget) (by omega)

theorem scanGo_spec (edges : List BackwardsEdge) :
    ∀ i acc edges' best, scanGo edges i acc = some (edges', best) →
      ∃ ss, peekScoresGo edges = some ss ∧ best = argmaxFrom i acc ss ∧
        edges'.length = edges.length ∧
        ∀ j, edges'.get? j = (edges.get? j).bind peekUpd? := by
  induction edges with
  | nil =>
    intro i acc edges' best hres
    unfold scanGo at hres
    injection hres with h1
    injection h1 with h2 h3
    subst h2; subst h3
    exact ⟨[], rfl, rfl, rfl, fun j => by simp⟩
  | cons e rest ih =>
    intro i acc edges' best hres
    unfold scanGo at hres
    cases hd : e.Dequeue true with
    | none => rw [hd] at hres; exact Option.noConfusion hres
    | some pr =>
      rw [hd] at hres
      cases pr with
      | mk current e1 =>
        simp only [] at hres
        cases hsc : spScore? current with
        | none => rw [hsc] at hres; exact Option.noConfusion hres
        | some sc =>
          rw [hsc] at hres
          simp only [] at hres
          cases hrec : scanGo rest (i + 1) (argStep i sc acc) with
          | none =>
            rw [hrec] at hres
            exact Option.noConfusion hres
          | some prr =>
            rw [hrec] at hres
            cases prr with
            | mk rest' bestF =>
              simp only [] at hres
              injection hres with h1
              injection h1 with h2 h3
              subst h2; subst h3
              obtain ⟨ss', hpeek', hbest', hlen', hupd'⟩ := ih _ _ _ _ hrec
              have hpe : peekScore? e = some sc := by
                unfold peekScore?
                rw [hd]
                exact hsc
              refine ⟨sc :: ss', ?_, ?_, ?_, ?_⟩
              · unfold peekScoresGo
                rw [hpe, hpeek']
              · unfold argmaxFrom
                exact hbest'
              · simp [hlen']
              · intro j
                cases j with
                | zero =>
                  simp only [List.get?, Option.bind]
                  unfold peekUpd?
                  rw [hd]
                  rfl
                | succ jj => simpa using hupd' jj

theorem initialize_inited (e e' : BackwardsEdge) (h : e.Initialize = some e') :
    e'.m_inited = true := by
  unfold BackwardsEdge.Initialize at h
  split at h
  · exact Option.noConfusion h
  · split at h
    · exact Option.noConfusion h
    · split at h
      · exact Option.noConfusion h
      · split at h
        · exact Option.noConfusion h
        · cases h; rfl

theorem dequeue_branch_inited (e e1 : BackwardsEdge)
    (hb : (if e.m_inited then some e else e.Initialize) = some e1) : e1.m_inited = true := by
  by_cases hi : e.m_inited
  · rw [if_pos hi] at hb
    cases hb
    exact hi
  · rw [if_neg hi] at hb
    exact initialize_inited e e1 hb

theorem dequeueTrue_inited (e : BackwardsEdge) (p : SquarePosition) (e' : BackwardsEdge)
    (h : e.Dequeue true = some (p, e')) : e'.m_inited = true := by
  unfold BackwardsEdge.Dequeue at h
  cases hb : (if e.m_inited then some e else e.Initialize) with
  | none => rw [hb] at h; exact Option.noConfusion h
  | some e1 =>
    rw [hb] at h
    simp only [] at h
    have he1 := dequeue_branch_inited e e1 hb
    cases hq : e1.m_queue with
    | nil =>
      rw [hq] at h
      injection h with h1
      injection h1 with h2 h3
      subst h3
      exact he1
    | cons top rest =>
      rw [hq] at h
      injection h with h1
      injection h1 with h2 h3
      subst h3
      exact he1

theorem dequeue_false_after_peek (e : BackwardsEdge) (p : SquarePosition) (e' : BackwardsEdge)
    (s : Int) (hd : e.Dequeue true = some (p, e')) (hs : spScore? p = some s) :
    e'.m_queue.head? = some p ∧
    e'.Dequeue false = some (p, { e' with m_queue := e'.m_queue.tail }) := by
  have hin := dequeueTrue_inited e p e' hd
  unfold BackwardsEdge.Dequeue at hd
  cases hb : (if e.m_inited then some e else e.Initialize) with
  | none => rw [hb] at hd; exact Option.noConfusion hd
  | some e1 =>
    rw [hb] at hd
    simp only [] at hd
    cases hq : e1.m_queue with
    | nil =>
      rw [hq] at hd
      injection hd with h1
      injection h1 with h2 h3
      rw [← h2] at hs
      exact absurd hs (by simp [BackwardsEdge.InvalidSquarePosition, spScore?])
    | cons top rest =>
      rw [hq] at hd
      injection hd with h1
      injection h1 with h2 h3
      subst h2
      have he' : e' = e1 := h3.symm
      subst he'
      constructor
      · rw [hq]; rfl
      · have hbranch : (if e'.m_inited = true then some e' else e'.Initialize) = some e' := by
          rw [hin]
          simp
        unfold BackwardsEdge.Dequeue
        rw [hbranch]
        simp only []
        rw [hq]
        rfl

/-- C6: the model is a pure function of the search state, so two runs on
identical inputs produce identical admission sequences by construction; the
substantive content is the tie-break.  Modelled from the spec: the edge set's
iteration order (fixed in the missing header `BitmapContainer.h`) is the
insertion order of `AddBackwardsEdge`, per §4.4.  The scan of
`FindKBestHypotheses` then selects, via the strict `>` against the running
`bestScore`, exactly the lowest insertion index attaining the maximal peeked
total score: the selected index's score is maximal (`s ≤ bs` for every edge
index `j`), and every earlier edge scores strictly less (`j < bi → s < bs`) —
ties are resolved by insertion sequence, never by address or hash order
(addresses do not exist in the model). -/
theorem findKBest_tie_break_insertion_order (c : BitmapContainer)
    (edges' : List BackwardsEdge) (bi : Nat) (bs : Int) (ss : List Int) (j : Nat) (s : Int)
    (hscan : scanEdges c.m_edges = some (edges', some (bi, bs)))
    (hss : peekScoresGo c.m_edges = some ss)
    (hj : ss.get? j = some s) :
    ss.get? bi = some bs ∧ s ≤ bs ∧ (j < bi → s < bs) := by
  obtain ⟨ss0, hpeek0, hbest, _, _⟩ := scanGo_spec c.m_edges 0 none edges' _ hscan
  have hsseq : ss0 = ss := by
    rw [hpeek0] at hss
    exact Option.some_injective _ hss
  subst hsseq
  have hmax := argmaxFrom_from ss0 0 none (bi, bs) hbest.symm
  rcases hmax with habs | ⟨k, _, hbik, hgetk⟩
  · exact absurd habs (by simp)
  · have hbi : bi = k := by simpa using hbik
    subst hbi
    refine ⟨hgetk, ?_, ?_⟩
    · exact argmaxFrom_le ss0 0 none (bi, bs) hbest.symm j s hj
    · intro hlt
      exact argmaxFrom_least ss0 0 none (bi, bs) (fun a b hab => absurd hab (by simp))
        hbest.symm j s hj (by omega)

/-- A translation option with score 0 covering `(0,0)`. -/
def tC : TranslationOption := ⟨⟨⟨0, 0⟩, 0⟩, []⟩

/-- First-inserted edge: best predecessor `hA` with option `tA` (top `-1`). -/
def edgeT1 : BackwardsEdge := BackwardsEdge.construct [hA] [tA] 2

/-- Second-inserted edge: predecessor `hB` with option `tC` (top `-1`, tied). -/
def edgeT2 : BackwardsEdge := BackwardsEdge.construct [hB] [tC] 2

/-- A container with two edges whose queue tops tie at total score `-1`. -/
def cTie : BitmapContainer := ⟨⟨[false, false]⟩, [], 2, [hA], [edgeT1, edgeT2]⟩

/-- The hypothesis composed at cell `(0,0)` of the concrete edges: word 0
covered, total score `-1`. -/
def h00 : Hypothesis := ⟨⟨[true, false]⟩, -1⟩

/-- The peeked `(0,0)` square position of the concrete edges. -/
def posT : SquarePosition := ⟨some h00, (0, 0)⟩

/-- `edgeT1` after the scan peeked (and so initialized) it. -/
def edgeT1Peeked : BackwardsEdge :=
  ⟨[posT], ⟨4, [true, false, false, false]⟩, true, 2, ⟨0, [tA]⟩, ⟨0, [hA]⟩⟩

/-- `edgeT2` after the scan peeked (and so initialized) it. -/
def edgeT2Peeked : BackwardsEdge :=
  ⟨[posT], ⟨4, [true, false, false, false]⟩, true, 2, ⟨0, [tC]⟩, ⟨0, [hB]⟩⟩

/-- Witness for C6: on the container with two edges whose tops tie at `-1`,
the scan selects edge index 0 — the earlier-inserted edge — and the later tied
edge (index 1) satisfies the ordering facts of the theorem. -/
theorem findKBest_tie_break_insertion_order_witness :
    ([-1, -1] : List Int).get? 0 = some (-1) ∧ (-1 : Int) ≤ -1 ∧
      ((1 : Nat) < 0 → (-1 : Int) < -1) :=
  findKBest_tie_break_insertion_order cTie [edgeT1Peeked, edgeT2Peeked] 0 (-1)
    [-1, -1] 1 (-1) rfl rfl rfl

/-- The 2×2 edge of the concrete one-round scenario: two predecessor
hypotheses (`0`, `-1`) and two options (`-1`, `-3`). -/
def edge4 : BackwardsEdge := BackwardsEdge.construct [hA, hB] [tA, tB] 2

/-- A container holding just `edge4`, with an empty owning stack. -/
def cRound : BitmapContainer := ⟨⟨[false, false]⟩, [], 2, [hA, hB], [edge4]⟩

/-- C4 counterexample: one invocation of `FindKBestHypotheses` on `cRound`
admits exactly one hypothesis (score `-1`) and then returns, although the
edge's queue still holds two candidates with readable tops (`-2`, `-3`), no
per-container pop limit was consulted (the function contains none —
`cubePruningPopLimit` does not occur in `BitmapContainer.cpp`), and no beam
threshold was checked.  This refutes the claim that a single invocation keeps
performing rounds until the pop limit, drained edges, or the beam threshold
stop it. -/
theorem findKBest_single_pop_counterexample :
    (cRound.FindKBestHypotheses).map
        (fun c1 => (c1.m_stack.map Hypothesis.totalScore,
                    c1.m_edges.map (fun e => e.m_queue.map spScore?))) =
      some ([-1], [[some (-2), some (-3)]]) := rfl

/-- C4 as amended: a single invocation of `FindKBestHypotheses` on a container
with a non-empty edge set performs exactly one pop–admit–push round — whenever
it returns a container, the owning stack received exactly one admission; the
repetition and every stopping condition (the `cubePruningPopLimit` budget,
drained edges, the beam threshold) live in the caller, not in this
function. -/
theorem findKBest_single_round (c c' : BitmapContainer) (hne : c.m_edges ≠ [])
    (hres : c.FindKBestHypotheses = some c') :
    c'.m_stack.length = c.m_stack.length + 1 := by
  unfold BitmapContainer.FindKBestHypotheses at hres
  have hemp : c.m_edges.isEmpty = false := by
    cases hcm : c.m_edges with
    | nil => exact absurd hcm hne
    | cons x xs => rfl
  rw [hemp, if_neg Bool.false_ne_true] at hres
  cases hscan : scanEdges c.m_edges with
  | none => rw [hscan] at hres; exact Option.noConfusion hres
  | some pr =>
    rw [hscan] at hres
    cases pr with
    | mk edges' best =>
      cases best with
      | none => exact Option.noConfusion hres
      | some bb =>
        cases bb with
        | mk bi bs =>
          simp only [] at hres
          cases hget : edges'.get? bi with
          | none => rw [hget] at hres; exact Option.noConfusion hres
          | some eb =>
            rw [hget] at hres
            simp only [] at hres
            cases hdeq : eb.Dequeue false with
            | none => rw [hdeq] at hres; exact Option.noConfusion hres
            | some pp =>
              rw [hdeq] at hres
              cases pp with
              | mk pos e2 =>
                simp only [] at hres
                cases hfirst : pos.first with
                | none => rw [hfirst] at hres; exact Option.noConfusion hres
                | some bestHypo =>
                  rw [hfirst] at hres
                  simp only [] at hres
                  cases hpush : e2.PushSuccessors pos.second.1 pos.second.2 with
                  | none => rw [hpush] at hres; exact Option.noConfusion hres
                  | some e3 =>
                    rw [hpush] at hres
                    injection hres with h1
                    rw [← h1]
                    simp

/-- The state of `edge4` after one full round: `(0,0)` popped, the successors
`(1,0)` (score `-2`) and `(0,1)` (score `-3`) created and enqueued, their seen
bits set. -/
def edge4After : BackwardsEdge :=
  ⟨[⟨some ⟨⟨[true, false]⟩, -2⟩, (1, 0)⟩, ⟨some ⟨⟨[true, false]⟩, -3⟩, (0, 1)⟩],
    ⟨4, [true, true, true, false]⟩, true, 2, ⟨0, [tA, tB]⟩, ⟨0, [hA, hB]⟩⟩

/-- `cRound` after one invocation: one admission (`h00`), the edge advanced to
`edge4After`. -/
def cRoundRes : BitmapContainer := ⟨⟨[false, false]⟩, [h00], 2, [hA, hB], [edge4After]⟩

/-- Witness for the amended C4: the single round on `cRound` grows the stack
from 0 to 1 admissions. -/
theorem findKBest_single_round_witness :
    cRoundRes.m_stack.length = cRound.m_stack.length + 1 :=
  findKBest_single_round cRound cRoundRes (by simp [cRound]) rfl

theorem peekScoresGo_get (edges : List BackwardsEdge) :
    ∀ ss, peekScoresGo edges = some ss →
      ∀ j e, edges.get? j = some e → ss.get? j = peekScore? e := by
  induction edges with
  | nil => intro ss _ j e hget; cases j <;> exact absurd hget (by simp)
  | cons a rest ih =>
    intro ss hss j e hget
    unfold peekScoresGo at hss
    cases hp : peekScore? a with
    | none => rw [hp] at hss; exact Option.noConfusion hss
    | some s0 =>
      rw [hp] at hss
      simp only [] at hss
      cases hrec : peekScoresGo rest with
      | none => rw [hrec] at hss; exact Option.noConfusion hss
      | some ss' =>
        rw [hrec] at hss
        injection hss with h1
        subst h1
        cases j with
        | zero =>
          simp only [List.get?] at hget
          cases hget
          exact hp.symm
        | succ jj =>
          exact ih ss' hrec jj e (by simpa using hget)

/-- C7: one round of `BitmapContainer::FindKBestHypotheses` (lines 252–288)
does exactly this, in this order: the scan peeks every edge without popping
and selects an edge whose peeked top score `bs` is maximal over all edges
(`s ≤ bs` for every peeked score `s`); that edge's queue top — the very
element peeked, scoring `bs` — is then popped via `Dequeue(false)`; the popped
hypothesis is admitted through the owning stack's `AddPrune` (the single
element appended to the admission sequence); and `PushSuccessors` runs on that
same edge at the popped position's coordinates, giving the edge state stored
back into the container. -/
theorem findKBest_round_spec (c : BitmapContainer) (edges' : List BackwardsEdge)
    (bi : Nat) (bs : Int) (ss : List Int) (eb e2 e3 : BackwardsEdge)
    (pos : SquarePosition) (bestHypo : Hypothesis) (j : Nat) (s : Int)
    (hscan : scanEdges c.m_edges = some (edges', some (bi, bs)))
    (hss : peekScoresGo c.m_edges = some ss)
    (hget : edges'.get? bi = some eb)
    (hdeq : eb.Dequeue false = some (pos, e2))
    (hfirst : pos.first = some bestHypo)
    (hpush : e2.PushSuccessors pos.second.1 pos.second.2 = some e3)
    (hj : ss.get? j = some s) :
    c.FindKBestHypotheses =
      some { c with m_edges := edges'.set bi e3, m_stack := c.m_stack ++ [bestHypo] } ∧
    bestHypo.totalScore = bs ∧
    eb.m_queue.head? = some pos ∧
    s ≤ bs := by
  have hne : c.m_edges ≠ [] := by
    intro h
    rw [h] at hscan
    unfold scanEdges scanGo at hscan
    injection hscan with h1
    injection h1 with h2 h3
    exact Option.noConfusion h3
  obtain ⟨ss0, hpeek0, hbest, hlen, hupd⟩ := scanGo_spec c.m_edges 0 none edges' _ hscan
  have hsseq : ss0 = ss := by
    rw [hpeek0] at hss
    exact Option.some_injective _ hss
  subst hsseq
  -- the peeked score of the selected edge is the selected maximum
  have hssbi : ss0.get? bi = some bs := by
    rcases argmaxFrom_from ss0 0 none (bi, bs) hbest.symm with habs | ⟨k, _, hbik, hgetk⟩
    · exact absurd habs (by simp)
    · have hbi : bi = k := by simpa using hbik
      rw [hbi]
      exact hgetk
  -- recover the original edge behind the peeked snapshot
  have hupdbi := hupd bi
  rw [hget] at hupdbi
  cases he0 : c.m_edges.get? bi with
  | none => rw [he0] at hupdbi; exact Option.noConfusion hupdbi
  | some e0 =>
    rw [he0] at hupdbi
    simp only [Option.bind] at hupdbi
    unfold peekUpd? at hupdbi
    cases hd0 : e0.Dequeue true with
    | none => rw [hd0] at hupdbi; exact Option.noConfusion hupdbi
    | some pr0 =>
      rw [hd0] at hupdbi
      cases pr0 with
      | mk p0 eb0 =>
        simp only [Option.map] at hupdbi
        have heb : eb = eb0 := Option.some_injective _ hupdbi
        subst heb
        -- the peeked element scores bs
        have hp0s : spScore? p0 = some bs := by
          have := peekScoresGo_get c.m_edges ss0 hpeek0 bi e0 he0
          rw [hssbi] at this
          unfold peekScore? at this
          rw [hd0] at this
          exact this.symm
        obtain ⟨hhead, hdeq'⟩ := dequeue_false_after_peek e0 p0 eb bs hd0 hp0s
        -- the popped element is the peeked one
        rw [hdeq] at hdeq'
        injection hdeq' with h1
        injection h1 with h2 h3
        have hpos : pos = p0 := h2
        subst hpos
        refine ⟨?_, ?_, hhead, ?_⟩
        · unfold BitmapContainer.FindKBestHypotheses
          have hemp : c.m_edges.isEmpty = false := by
            cases hcm : c.m_edges with
            | nil => exact absurd hcm hne
            | cons x xs => rfl
          rw [hemp, if_neg Bool.false_ne_true, hscan]
          simp only []
          rw [hget]
          simp only []
          rw [hdeq]
          simp only []
          rw [hfirst]
          simp only []
          rw [hpush]
        · unfold spScore? at hp0s
          rw [hfirst] at hp0s
          exact Option.some_injective _ hp0s
        · have := argmaxFrom_le ss0 0 none (bi, bs) hbest.symm j s hj
          exact this

/-- `edge4` after the scan peeked (and so initialized) it. -/
def edge4Peeked : BackwardsEdge :=
  ⟨[posT], ⟨4, [true, false, false, false]⟩, true, 2, ⟨0, [tA, tB]⟩, ⟨0, [hA, hB]⟩⟩

/-- `edge4Peeked` right after its top was popped. -/
def edge4Popped : BackwardsEdge :=
  ⟨[], ⟨4, [true, false, false, false]⟩, true, 2, ⟨0, [tA, tB]⟩, ⟨0, [hA, hB]⟩⟩

/-- Witness for C7: the concrete round on `cRound` — the peeked maximum is
`-1`, the popped top is `(h00, (0,0))` sitting at the head of the selected
edge's queue, and the invocation admits exactly `h00` and stores back the
pushed-successors edge state. -/
theorem findKBest_round_spec_witness :
    cRound.FindKBestHypotheses = some cRoundRes ∧
    h00.totalScore = -1 ∧
    edge4Peeked.m_queue.head? = some posT ∧
    (-1 : Int) ≤ -1 :=
  findKBest_round_spec cRound [edge4Peeked] 0 (-1) [-1] edge4Peeked edge4Popped
    edge4After posT h00 0 (-1) rfl rfl rfl rfl rfl rfl rfl

theorem pqGo_mem (q : List SquarePosition) :
    ∀ p s q', pqGo p s q = some q' → ∀ r ∈ q', r = p ∨ r ∈ q := by
  induction q with
  | nil =>
    intro p s q' hres r hr
    unfold pqGo at hres
    cases hres
    rcases List.mem_singleton.mp hr with heq
    exact Or.inl heq
  | cons a rest ih =>
    intro p s q' hres r hr
    unfold pqGo at hres
    cases hsa : spScore? a with
    | none => rw [hsa] at hres; exact Option.noConfusion hres
    | some sa =>
      rw [hsa] at hres
      simp only [] at hres
      by_cases hgt : s > sa
      · rw [if_pos hgt] at hres
        cases hres
        rcases List.mem_cons.mp hr with heq | htail
        · exact Or.inl heq
        · exact Or.inr htail
      · rw [if_neg hgt] at hres
        cases hrec : pqGo p s rest with
        | none => rw [hrec] at hres; exact Option.noConfusion hres
        | some qs' =>
          rw [hrec] at hres
          cases hres
          rcases List.mem_cons.mp hr with heq | htail
          · exact Or.inr (by rw [heq]; exact List.mem_cons_self a rest)
          · rcases ih p s qs' hrec r htail with hp | hq
            · exact Or.inl hp
            · exact Or.inr (List.mem_cons_of_mem a hq)

theorem enqueue_spec (e : BackwardsEdge) (x y : Int) (oh : Option Hypothesis)
    (e' : BackwardsEdge) (h : e.Enqueue x y oh = some e') :
    0 ≤ (e.m_kbest : Int) * x + y ∧
    ((e.m_kbest : Int) * x + y).toNat < e.m_seenPosition.storage.length ∧
    e'.m_seenPosition.storage =
      e.m_seenPosition.storage.set ((e.m_kbest : Int) * x + y).toNat true ∧
    e'.m_kbest = e.m_kbest ∧ e'.m_kbest_translations = e.m_kbest_translations ∧
    e'.m_kbest_hypotheses = e.m_kbest_hypotheses ∧ e'.m_inited = e.m_inited ∧
    (∀ r ∈ e'.m_queue, r = ⟨oh, (x, y)⟩ ∨ r ∈ e.m_queue) := by
  unfold BackwardsEdge.Enqueue at h
  cases hpq : pqPush e.m_queue ⟨oh, (x, y)⟩ with
  | none => rw [hpq] at h; exact Option.noConfusion h
  | some q =>
    rw [hpq] at h
    simp only [] at h
    cases hsa : e.m_seenPosition.setAt ((e.m_kbest : Int) * x + y) true with
    | none => rw [hsa] at h; exact Option.noConfusion h
    | some seen =>
      rw [hsa] at h
      injection h with h1
      unfold CppVector.setAt at hsa
      split at hsa
      · injection hsa with h2
        rename_i hcond
        refine ⟨hcond.1, hcond.2, ?_, ?_, ?_, ?_, ?_, ?_⟩
        · rw [← h1, ← h2]
        · rw [← h1]
        · rw [← h1]
        · rw [← h1]
        · rw [← h1]
        · intro r hr
          rw [← h1] at hr
          unfold pqPush at hpq
          cases hsp : spScore? ⟨oh, (x, y)⟩ with
          | none => rw [hsp] at hpq; exact Option.noConfusion hpq
          | some s =>
            rw [hsp] at hpq
            exact pqGo_mem e.m_queue _ s q hpq r hr
      · exact Option.noConfusion hsa

/-- C5 as amended: an in-bounds, not-previously-seen neighbour cell whose
hypothesis construction fails is NOT marked seen: the code (lines 97–101 and
139–150) sets the seen bit only inside `Enqueue`, which is skipped when
`CreateHypothesis` returns NULL, so the call degenerates to probing the other
neighbour and the failed cell's seen bit still reads `false` afterwards — the
cell will be rebuilt when visited again. -/
theorem pushSuccessors_failed_cell_not_marked (e : BackwardsEdge) (x y : Int)
    (hx : Hypothesis) (ty : TranslationOption) (e' : BackwardsEdge)
    (hseen : e.SeenPosition x (y + 1) = some false)
    (hhx : e.m_kbest_hypotheses.atInt x = some hx)
    (hty : e.m_kbest_translations.atInt (y + 1) = some ty)
    (hfail : BackwardsEdge.CreateHypothesis hx ty = none)
    (htry : e.tryCell (x + 1) y = some e')
    (hk : 2 ≤ e.m_kbest) :
    e.PushSuccessors x y = e.tryCell (x + 1) y ∧
    e'.SeenPosition x (y + 1) = some false := by
  constructor
  · unfold BackwardsEdge.PushSuccessors BackwardsEdge.tryCell
    rw [hseen]
    simp only []
    rw [hhx]
    simp only []
    rw [hty]
    simp only []
    rw [hfail]
  · unfold BackwardsEdge.tryCell at htry
    cases hseen2 : e.SeenPosition (x + 1) y with
    | none => rw [hseen2] at htry; exact Option.noConfusion htry
    | some b =>
      rw [hseen2] at htry
      cases b with
      | true =>
        simp only [] at htry
        injection htry with h1
        rw [← h1]
        exact hseen
      | false =>
        simp only [] at htry
        cases hhx2 : e.m_kbest_hypotheses.atInt (x + 1) with
        | none => rw [hhx2] at htry; exact Option.noConfusion htry
        | some hx2 =>
          rw [hhx2] at htry
          simp only [] at htry
          cases hty2 : e.m_kbest_translations.atInt y with
          | none => rw [hty2] at htry; exact Option.noConfusion htry
          | some ty2 =>
            rw [hty2] at htry
            simp only [] at htry
            cases hch : BackwardsEdge.CreateHypothesis hx2 ty2 with
            | none =>
              rw [hch] at htry
              injection htry with h1
              rw [← h1]
              exact hseen
            | some newHypo =>
              rw [hch] at htry
              obtain ⟨hnn, hlt, hstor, hkb, _, _, _, _⟩ :=
                enqueue_spec e (x + 1) y (some newHypo) e' htry
              -- the written bit sits at a different index than the failed cell
              unfold BackwardsEdge.SeenPosition CppVector.atInt CppVector.nth at hseen ⊢
              have hnn1 : (0 : Int) ≤ (e.m_kbest : Int) * x + (y + 1) := by
                by_contra hneg
                rw [if_neg hneg] at hseen
                exact Option.noConfusion hseen
              rw [if_pos hnn1] at hseen
              rw [hkb, if_pos hnn1, hstor]
              have hne : ((e.m_kbest : Int) * (x + 1) + y).toNat ≠
                  ((e.m_kbest : Int) * x + (y + 1)).toNat := by
                have hk2 : (2 : Int) ≤ (e.m_kbest : Int) := by exact_mod_cast hk
                have : (e.m_kbest : Int) * (x + 1) + y =
                    (e.m_kbest : Int) * x + (y + 1) + ((e.m_kbest : Int) - 1) := by ring
                omega
              rw [List.get?_set_ne _ _ hne]
              exact hseen

/-- A hypothesis over a 3-word sentence covering word 0 (best predecessor of
the linked-overlap scenario). -/
def h5a : Hypothesis := ⟨⟨[true, false, false]⟩, 0⟩

/-- Second predecessor of the linked-overlap scenario, same coverage. -/
def h5b : Hypothesis := ⟨⟨[true, false, false]⟩, -1⟩

/-- Best option: covers `(1,1)`, no linked group. -/
def t5a : TranslationOption := ⟨⟨⟨1, 1⟩, -1⟩, []⟩

/-- Second option: covers `(1,1)` with a linked option on `(0,0)` — the
linked span overlaps the predecessors' coverage, so extension fails. -/
def t5b : TranslationOption := ⟨⟨⟨1, 1⟩, -2⟩, [⟨⟨0, 0⟩, -1⟩]⟩

/-- The `K = 2` edge of the linked-overlap scenario. -/
def e5 : BackwardsEdge := BackwardsEdge.construct [h5a, h5b] [t5a, t5b] 2

/-- `e5` right after its `(0,0)` top was popped. -/
def e5AfterPop : Option BackwardsEdge := (e5.Dequeue false).map Prod.snd

/-- C5 counterexample: in the linked-overlap scenario the cell `(0,1)` is in
bounds (both snapshot reads succeed), was not previously seen, and its
hypothesis construction fails (`CreateHypothesis` returns NULL because the
linked option overlaps) — yet after `PushSuccessors(0,0)` its seen bit still
reads `false`, refuting the claim that failed cells are marked seen. -/
theorem pushSuccessors_failed_cell_counterexample :
    e5AfterPop.map (fun e => e.SeenPosition 0 1) = some (some false) ∧
    e5AfterPop.map (fun e => e.m_kbest_hypotheses.atInt 0) = some (some h5a) ∧
    e5AfterPop.map (fun e => e.m_kbest_translations.atInt 1) = some (some t5b) ∧
    BackwardsEdge.CreateHypothesis h5a t5b = none ∧
    e5AfterPop.map (fun e => (e.PushSuccessors 0 0).map (fun e' => e'.SeenPosition 0 1)) =
      some (some (some false)) :=
  ⟨rfl, rfl, rfl, rfl, rfl⟩

/-- The popped state of `e5`: `(0,0)` consumed, queue empty. -/
def e5Popped : BackwardsEdge :=
  ⟨[], ⟨4, [true, false, false, false]⟩, true, 2, ⟨0, [t5a, t5b]⟩, ⟨0, [h5a, h5b]⟩⟩

/-- `e5Popped` after probing the other neighbour `(1,0)`: its hypothesis
(score `-2`) enqueued and its seen bit set; cell `(0,1)` untouched. -/
def e5After : BackwardsEdge :=
  ⟨[⟨some ⟨⟨[true, true, false]⟩, -2⟩, (1, 0)⟩], ⟨4, [true, false, true, false]⟩,
    true, 2, ⟨0, [t5a, t5b]⟩, ⟨0, [h5a, h5b]⟩⟩

/-- Witness for the amended C5: on the concrete linked-overlap edge the call
degenerates to the other neighbour and leaves the failed cell unseen. -/
theorem pushSuccessors_failed_cell_not_marked_witness :
    e5Popped.PushSuccessors 0 0 = e5Popped.tryCell 1 0 ∧
    e5After.SeenPosition 0 1 = some false :=
  pushSuccessors_failed_cell_not_marked e5Popped 0 0 h5a t5b e5After
    rfl rfl rfl rfl rfl (by decide)

theorem atInt_some {α : Type} (v : CppVector α) (i : Int) (x : α)
    (h : v.atInt i = some x) : 0 ≤ i ∧ v.storage.get? i.toNat = some x := by
  unfold CppVector.atInt at h
  by_cases hi : 0 ≤ i
  · rw [if_pos hi] at h
    exact ⟨hi, h⟩
  · rw [if_neg hi] at h
    exact Option.noConfusion h

theorem gridCell_bounds (hs : List Hypothesis) (ts : List TranslationOption) (x y : Nat)
    (s : Int) (h : gridCell hs ts x y = some s) : x < hs.length ∧ y < ts.length := by
  unfold gridCell at h
  cases hx : hs.get? x with
  | none => rw [hx] at h; exact Option.noConfusion h
  | some hxv =>
    cases hy : ts.get? y with
    | none => rw [hx, hy] at h; exact Option.noConfusion h
    | some tyv =>
      obtain ⟨hlt1, _⟩ := List.get?_eq_some.mp hx
      obtain ⟨hlt2, _⟩ := List.get?_eq_some.mp hy
      exact ⟨hlt1, hlt2⟩

theorem optLe_some_some (a b : Int) (h : optLe (some a) (some b) = true) : a ≤ b := by
  unfold optLe at h
  exact of_decide_eq_true h

theorem gridMonoB_spec (hs : List Hypothesis) (ts : List TranslationOption)
    (hmono : gridMonoB hs ts = true) (x y : Nat)
    (hx : x < hs.length) (hy : y < ts.length) :
    optLe (gridCell hs ts (x + 1) y) (gridCell hs ts x y) = true ∧
    optLe (gridCell hs ts x (y + 1)) (gridCell hs ts x y) = true := by
  unfold gridMonoB at hmono
  rw [List.all_eq_true] at hmono
  have h1 := hmono x (List.mem_range.mpr hx)
  rw [List.all_eq_true] at h1
  have h2 := h1 y (List.mem_range.mpr hy)
  simp only [Bool.and_eq_true] at h2
  exact h2

theorem pqGo_pairwise (q : List SquarePosition) :
    ∀ p s q', q.Pairwise geScore → spScore? p = some s → pqGo p s q = some q' →
      q'.Pairwise geScore := by
  induction q with
  | nil =>
    intro p s q' _ _ hres
    unfold pqGo at hres
    cases hres
    exact List.pairwise_singleton _ _
  | cons a rest ih =>
    intro p s q' hpw hs hres
    unfold pqGo at hres
    cases hsa : spScore? a with
    | none => rw [hsa] at hres; exact Option.noConfusion hres
    | some sa =>
      rw [hsa] at hres
      simp only [] at hres
      rcases List.pairwise_cons.mp hpw with ⟨harest, hrest⟩
      by_cases hgt : s > sa
      · rw [if_pos hgt] at hres
        cases hres
        refine List.pairwise_cons.mpr ⟨?_, hpw⟩
        intro r hr
        intro sp sq hsp hsq
        have hsps : sp = s := by
          rw [hs] at hsp
          exact (Option.some_injective _ hsp).symm
        subst hsps
        rcases List.mem_cons.mp hr with heq | htail
        · subst heq
          rw [hsa] at hsq
          have : sq = sa := (Option.some_injective _ hsq).symm
          omega
        · have := harest r htail sa sq hsa hsq
          omega
      · rw [if_neg hgt] at hres
        cases hrec : pqGo p s rest with
        | none => rw [hrec] at hres; exact Option.noConfusion hres
        | some qs' =>
          rw [hrec] at hres
          cases hres
          refine List.pairwise_cons.mpr ⟨?_, ih p s qs' hrest hs hrec⟩
          intro r hr sp sq hsp hsq
          have hsps : sp = sa := by
            rw [hsa] at hsp
            exact (Option.some_injective _ hsp).symm
          subst hsps
          rcases pqGo_mem rest p s qs' hrec r hr with heq | htail
          · subst heq
            rw [hs] at hsq
            have : sq = s := (Option.some_injective _ hsq).symm
            omega
          · exact harest r htail sp sq hsa hsq

theorem enqueue_pairwise (e : BackwardsEdge) (x y : Int) (h : Hypothesis)
    (e' : BackwardsEdge) (henq : e.Enqueue x y (some h) = some e')
    (hpw : e.m_queue.Pairwise geScore) : e'.m_queue.Pairwise geScore := by
  unfold BackwardsEdge.Enqueue at henq
  cases hpq : pqPush e.m_queue ⟨some h, (x, y)⟩ with
  | none => rw [hpq] at henq; exact Option.noConfusion henq
  | some q =>
    rw [hpq] at henq
    simp only [] at henq
    cases hsa : e.m_seenPosition.setAt ((e.m_kbest : Int) * x + y) true with
    | none => rw [hsa] at henq; exact Option.noConfusion henq
    | some seen =>
      rw [hsa] at henq
      injection henq with h1
      rw [← h1]
      unfold pqPush at hpq
      have hsp : spScore? ⟨some h, (x, y)⟩ = some h.totalScore := rfl
      rw [hsp] at hpq
      simp only [] at hpq
      exact pqGo_pairwise e.m_queue _ _ q hpw hsp hpq

theorem enqueue_none (e : BackwardsEdge) (x y : Int) : e.Enqueue x y none = none := rfl

theorem tryCell_spec (e : BackwardsEdge) (a b : Int) (e' : BackwardsEdge)
    (h : e.tryCell a b = some e') :
    e'.m_kbest_translations = e.m_kbest_translations ∧
    e'.m_kbest_hypotheses = e.m_kbest_hypotheses ∧
    e'.m_kbest = e.m_kbest ∧
    e'.m_inited = e.m_inited ∧
    (e.m_queue.Pairwise geScore → e'.m_queue.Pairwise geScore) ∧
    ∀ r ∈ e'.m_queue, r ∈ e.m_queue ∨
      (0 ≤ a ∧ 0 ≤ b ∧ r.second = (a, b) ∧
        ∃ hr, r.first = some hr ∧
          gridCell e.m_kbest_hypotheses.storage e.m_kbest_translations.storage
            a.toNat b.toNat = some hr.totalScore) := by
  unfold BackwardsEdge.tryCell at h
  cases hseen : e.SeenPosition a b with
  | none => rw [hseen] at h; exact Option.noConfusion h
  | some sb =>
    rw [hseen] at h
    cases sb with
    | true =>
      simp only [] at h
      injection h with h1
      rw [← h1]
      exact ⟨rfl, rfl, rfl, rfl, fun hp => hp, fun r hr => Or.inl hr⟩
    | false =>
      simp only [] at h
      cases hha : e.m_kbest_hypotheses.atInt a with
      | none => rw [hha] at h; exact Option.noConfusion h
      | some ha =>
        rw [hha] at h
        simp only [] at h
        cases hta : e.m_kbest_translations.atInt b with
        | none => rw [hta] at h; exact Option.noConfusion h
        | some tb =>
          rw [hta] at h
          simp only [] at h
          cases hch : BackwardsEdge.CreateHypothesis ha tb with
          | none =>
            rw [hch] at h
            injection h with h1
            rw [← h1]
            exact ⟨rfl, rfl, rfl, rfl, fun hp => hp, fun r hr => Or.inl hr⟩
          | some newHypo =>
            rw [hch] at h
            obtain ⟨_, _, _, hkb, htr, hhy, hin, hmem⟩ :=
              enqueue_spec e a b (some newHypo) e' h
            obtain ⟨hann, hget_a⟩ := atInt_some e.m_kbest_hypotheses a ha hha
            obtain ⟨hbnn, hget_b⟩ := atInt_some e.m_kbest_translations b tb hta
            refine ⟨htr, hhy, hkb, hin, fun hp => enqueue_pairwise e a b newHypo e' h hp, ?_⟩
            intro r hr
            rcases hmem r hr with heq | hold
            · refine Or.inr ⟨hann, hbnn, by rw [heq], newHypo, by rw [heq], ?_⟩
              unfold gridCell
              rw [hget_a, hget_b]
              simp only []
              rw [hch]
            · exact Or.inl hold

theorem initialize_wf (e e' : BackwardsEdge) (hwf : QueueWF e) (h : e.Initialize = some e') :
    QueueWF e' ∧ e'.m_inited = true ∧
    e'.m_kbest_hypotheses = e.m_kbest_hypotheses ∧
    e'.m_kbest_translations = e.m_kbest_translations := by
  unfold BackwardsEdge.Initialize at h
  cases hh0 : e.m_kbest_hypotheses.nth 0 with
  | none => rw [hh0] at h; exact Option.noConfusion h
  | some h0 =>
    rw [hh0] at h
    simp only [] at h
    cases ht0 : e.m_kbest_translations.nth 0 with
    | none => rw [ht0] at h; exact Option.noConfusion h
    | some t0 =>
      rw [ht0] at h
      simp only [] at h
      cases hch : BackwardsEdge.CreateHypothesis h0 t0 with
      | none =>
        rw [hch, enqueue_none] at h
        exact Option.noConfusion h
      | some h00 =>
        rw [hch] at h
        cases henq : e.Enqueue 0 0 (some h00) with
        | none => rw [henq] at h; exact Option.noConfusion h
        | some e1 =>
          rw [henq] at h
          simp only [] at h
          cases hsa : e1.m_seenPosition.setAt 0 true with
          | none => rw [hsa] at h; exact Option.noConfusion h
          | some seen =>
            rw [hsa] at h
            injection h with h1
            obtain ⟨_, _, _, hkb, htr, hhy, hin, hmem⟩ :=
              enqueue_spec e 0 0 (some h00) e1 henq
            have hq : e'.m_queue = e1.m_queue := by rw [← h1]
            have htr' : e'.m_kbest_translations = e.m_kbest_translations := by
              rw [← h1]; exact htr
            have hhy' : e'.m_kbest_hypotheses = e.m_kbest_hypotheses := by
              rw [← h1]; exact hhy
            refine ⟨⟨?_, ?_⟩, by rw [← h1], hhy', htr'⟩
            · intro p hp
              rw [hq] at hp
              rw [htr', hhy']
              rcases hmem p hp with heq | hold
              · refine ⟨0, 0, by rw [heq]; rfl, h00.totalScore, by rw [heq]; rfl, ?_⟩
                unfold gridCell
                unfold CppVector.nth at hh0 ht0
                rw [hh0, ht0]
                simp only []
                rw [hch]
              · exact hwf.1 p hold
            · rw [hq]
              exact enqueue_pairwise e 0 0 h00 e1 henq hwf.2

theorem dequeue_branch_wf (e e1 : BackwardsEdge) (hwf : QueueWF e)
    (hb : (if e.m_inited = true then some e else e.Initialize) = some e1) :
    QueueWF e1 ∧ e1.m_kbest_hypotheses = e.m_kbest_hypotheses ∧
    e1.m_kbest_translations = e.m_kbest_translations := by
  by_cases hi : e.m_inited = true
  · rw [if_pos hi] at hb
    cases hb
    exact ⟨hwf, rfl, rfl⟩
  · rw [if_neg hi] at hb
    obtain ⟨hwf1, _, hh, ht⟩ := initialize_wf e e1 hwf hb
    exact ⟨hwf1, hh, ht⟩


theorem edgeRound_spec (e : BackwardsEdge) (s : Int) (e' : BackwardsEdge)
    (hwf : QueueWF e) (hround : edgeRound e = some (s, e')) :
    QueueWF e' ∧ e'.m_inited = true ∧
    e'.m_kbest_hypotheses = e.m_kbest_hypotheses ∧
    e'.m_kbest_translations = e.m_kbest_translations ∧
    (gridMonoB e.m_kbest_hypotheses.storage e.m_kbest_translations.storage = true →
      QueueBounded e' s) := by
  unfold edgeRound at hround
  cases hdq : e.Dequeue false with
  | none => rw [hdq] at hround; exact Option.noConfusion hround
  | some pr =>
    rw [hdq] at hround
    cases pr with
    | mk pos e1 =>
      simp only [] at hround
      cases hsp : spScore? pos with
      | none => rw [hsp] at hround; exact Option.noConfusion hround
      | some s0 =>
        rw [hsp] at hround
        simp only [] at hround
        cases hps : e1.PushSuccessors pos.second.1 pos.second.2 with
        | none => rw [hps] at hround; exact Option.noConfusion hround
        | some e2 =>
          rw [hps] at hround
          injection hround with h1
          injection h1 with hs0 he2
          rw [← hs0, ← he2]
          -- unpack the pop
          unfold BackwardsEdge.Dequeue at hdq
          cases hb : (if e.m_inited = true then some e else e.Initialize) with
          | none => rw [hb] at hdq; exact Option.noConfusion hdq
          | some ei =>
            rw [hb] at hdq
            simp only [] at hdq
            obtain ⟨hwfi, hhy_i, htr_i⟩ := dequeue_branch_wf e ei hwf hb
            have hin_i : ei.m_inited = true := dequeue_branch_inited e ei hb
            cases hq : ei.m_queue with
            | nil =>
              rw [hq] at hdq
              injection hdq with h2
              injection h2 with h3 h4
              rw [← h3] at hsp
              exact absurd hsp (by simp [BackwardsEdge.InvalidSquarePosition, spScore?])
            | cons top rest =>
              rw [hq] at hdq
              injection hdq with h2
              injection h2 with h3 h4
              subst h3
              have he1 : e1 = { ei with m_queue := rest } := h4.symm
              subst he1
              -- the popped element is a genuine grid cell
              obtain ⟨xn, yn, hsec, sT, hscT, hcell⟩ :=
                hwfi.1 top (by rw [hq]; exact List.mem_cons_self top rest)
              have hsT : sT = s0 := by
                rw [hsp] at hscT
                exact (Option.some_injective _ hscT).symm
              subst hsT
              obtain ⟨hxlt, hylt⟩ := gridCell_bounds _ _ xn yn sT hcell
              have hpw : (top :: rest).Pairwise geScore := by
                rw [← hq]; exact hwfi.2
              rcases List.pairwise_cons.mp hpw with ⟨harest, hrest⟩
              -- unpack the two successor probes
              unfold BackwardsEdge.PushSuccessors at hps
              rw [hsec] at hps
              simp only [] at hps
              cases htc1 : BackwardsEdge.tryCell { ei with m_queue := rest } (xn : Int)
                  ((yn : Int) + 1) with
              | none => rw [htc1] at hps; exact Option.noConfusion hps
              | some em =>
                rw [htc1] at hps
                simp only [] at hps
                obtain ⟨htr1, hhy1, _, hin1, hpw1, hmem1⟩ := tryCell_spec _ _ _ _ htc1
                obtain ⟨htr2, hhy2, _, hin2, hpw2, hmem2⟩ := tryCell_spec _ _ _ _ hps
                have hty1 : ((yn : Int) + 1).toNat = yn + 1 := by omega
                have htx1 : ((xn : Int)).toNat = xn := by omega
                have hty2 : ((yn : Int)).toNat = yn := by omega
                have htx2 : ((xn : Int) + 1).toNat = xn + 1 := by omega
                -- snapshots all the way down
                have hhy1i : em.m_kbest_hypotheses = ei.m_kbest_hypotheses := hhy1
                have htr1i : em.m_kbest_translations = ei.m_kbest_translations := htr1
                have hhyE : e2.m_kbest_hypotheses = e.m_kbest_hypotheses := by
                  rw [hhy2, hhy1i]; exact hhy_i
                have htrE : e2.m_kbest_translations = e.m_kbest_translations := by
                  rw [htr2, htr1i]; exact htr_i
                -- classify the elements of the final queue
                have hclassify : ∀ r ∈ e2.m_queue, r ∈ rest ∨
                    (∃ hr, r.first = some hr ∧ r.second = ((xn : Int), (yn : Int) + 1) ∧
                      gridCell ei.m_kbest_hypotheses.storage ei.m_kbest_translations.storage
                        xn (yn + 1) = some hr.totalScore) ∨
                    (∃ hr, r.first = some hr ∧ r.second = ((xn : Int) + 1, (yn : Int)) ∧
                      gridCell ei.m_kbest_hypotheses.storage ei.m_kbest_translations.storage
                        (xn + 1) yn = some hr.totalScore) := by
                  intro r hr
                  rcases hmem2 r hr with hmm | ⟨_, _, hsec2, hr2, hfirst2, hcell2⟩
                  · rcases hmem1 r hmm with hmm1 | ⟨_, _, hsec1, hr1, hfirst1, hcell1⟩
                    · exact Or.inl hmm1
                    · refine Or.inr (Or.inl ⟨hr1, hfirst1, hsec1, ?_⟩)
                      rw [htx1, hty1] at hcell1
                      exact hcell1
                  · refine Or.inr (Or.inr ⟨hr2, hfirst2, hsec2, ?_⟩)
                    rw [htx2, hty2] at hcell2
                    rw [hhy1i, htr1i] at hcell2
                    exact hcell2
                refine ⟨⟨?_, ?_⟩, ?_, hhyE, htrE, ?_⟩
                · -- every element of the final queue is a genuine grid cell
                  intro p hp
                  rw [hhyE, htrE, ← hhy_i, ← htr_i]
                  rcases hclassify p hp with hmm | ⟨hr, hfirst, hsec', hcell'⟩ |
                      ⟨hr, hfirst, hsec', hcell'⟩
                  · exact hwfi.1 p (by rw [hq]; exact List.mem_cons_of_mem top hmm)
                  · refine ⟨xn, yn + 1, by rw [hsec']; push_cast; ring_nf,
                      hr.totalScore, ?_, hcell'⟩
                    unfold spScore?
                    rw [hfirst]
                  · refine ⟨xn + 1, yn, by rw [hsec']; push_cast; ring_nf,
                      hr.totalScore, ?_, hcell'⟩
                    unfold spScore?
                    rw [hfirst]
                · exact hpw2 (hpw1 hrest)
                · rw [hin2, hin1]
                  exact hin_i
                · -- boundedness by the popped score, under grid monotonicity
                  intro hmono p hp sp hsp'
                  have hmono' : gridMonoB ei.m_kbest_hypotheses.storage
                      ei.m_kbest_translations.storage = true := by
                    rw [hhy_i, htr_i]
                    exact hmono
                  obtain ⟨hle1, hle2⟩ := gridMonoB_spec _ _ hmono' xn yn hxlt hylt
                  rcases hclassify p hp with hmm | ⟨hr, hfirst, hsec', hcell'⟩ |
                      ⟨hr, hfirst, hsec', hcell'⟩
                  · exact harest p hmm sT sp hsp hsp'
                  · have hsp_hr : sp = hr.totalScore := by
                      unfold spScore? at hsp'
                      rw [hfirst] at hsp'
                      exact (Option.some_injective _ hsp').symm
                    subst hsp_hr
                    rw [hcell'] at hle2
                    rw [hcell] at hle2
                    exact optLe_some_some _ _ hle2
                  · have hsp_hr : sp = hr.totalScore := by
                      unfold spScore? at hsp'
                      rw [hfirst] at hsp'
                      exact (Option.some_injective _ hsp').symm
                    subst hsp_hr
                    rw [hcell'] at hle1
                    rw [hcell] at hle1
                    exact optLe_some_some _ _ hle1

theorem edgeRound_le (e : BackwardsEdge) (B s : Int) (e' : BackwardsEdge)
    (hinit : e.m_inited = true) (hbd : QueueBounded e B)
    (hround : edgeRound e = some (s, e')) : s ≤ B := by
  unfold edgeRound at hround
  unfold BackwardsEdge.Dequeue at hround
  rw [hinit] at hround
  simp only [if_pos] at hround
  cases hq : e.m_queue with
  | nil =>
    rw [hq] at hround
    simp only [] at hround
    exact absurd hround (by simp [BackwardsEdge.InvalidSquarePosition, spScore?])
  | cons top rest =>
    rw [hq] at hround
    simp only [] at hround
    rw [if_neg Bool.false_ne_true] at hround
    cases hsp : spScore? top with
    | none => rw [hsp] at hround; exact Option.noConfusion hround
    | some s0 =>
      rw [hsp] at hround
      simp only [] at hround
      have hs0B : s0 ≤ B := hbd top (by rw [hq]; exact List.mem_cons_self top rest) s0 hsp
      cases hps : BackwardsEdge.PushSuccessors { e with m_queue := rest }
          top.second.1 top.second.2 with
      | none => rw [hps] at hround; exact Option.noConfusion hround
      | some e2 =>
        rw [hps] at hround
        injection hround with h1
        injection h1 with hs2 _
        rw [← hs2]
        exact hs0B

theorem edgeRun_chain_bounded (n : Nat) :
    ∀ (e : BackwardsEdge) (B : Int), QueueWF e →
      gridMonoB e.m_kbest_hypotheses.storage e.m_kbest_translations.storage = true →
      e.m_inited = true → QueueBounded e B →
      List.Chain' (· ≥ ·) (B :: edgeRunScores n e) := by
  induction n with
  | zero =>
    intro e B _ _ _ _
    simp [edgeRunScores]
  | succ n ih =>
    intro e B hwf hmono hinit hbd
    unfold edgeRunScores
    cases hr : edgeRound e with
    | none => simp
    | some pr =>
      cases pr with
      | mk s e' =>
        simp only []
        obtain ⟨hwf', hin', hhy', htr', hbdf⟩ := edgeRound_spec e s e' hwf hr
        have hsB : s ≤ B := edgeRound_le e B s e' hinit hbd hr
        have hmono' : gridMonoB e'.m_kbest_hypotheses.storage
            e'.m_kbest_translations.storage = true := by
          rw [hhy', htr']
          exact hmono
        exact List.chain'_cons.mpr ⟨hsB, ih e' s hwf' hmono' hin' (hbdf hmono)⟩

/-- C9: starting from any edge state whose queue satisfies the cube-pruning
invariant (in particular a freshly constructed edge, whose queue is empty),
and under §4.3's grid-monotonicity assumption — no cell of the composed grid
scores higher than either of its parents, which is exactly "no contextual
feature perturbs ordering" — the total scores of the successive non-sentinel
`Dequeue` results, as the driver exercises the edge in pop/`PushSuccessors`
rounds, form a monotone non-increasing sequence.  (A round that meets the
sentinel, a NULL hypothesis, or an out-of-bounds access truncates the
sequence.) -/
theorem edge_pop_scores_monotone (e : BackwardsEdge) (n : Nat)
    (hwf : QueueWF e)
    (hmono : gridMonoB e.m_kbest_hypotheses.storage
      e.m_kbest_translations.storage = true) :
    List.Chain' (· ≥ ·) (edgeRunScores n e) := by
  cases n with
  | zero => simp [edgeRunScores]
  | succ n =>
    unfold edgeRunScores
    cases hr : edgeRound e with
    | none => simp
    | some pr =>
      cases pr with
      | mk s e' =>
        simp only []
        obtain ⟨hwf', hin', hhy', htr', hbdf⟩ := edgeRound_spec e s e' hwf hr
        have hmono' : gridMonoB e'.m_kbest_hypotheses.storage
            e'.m_kbest_translations.storage = true := by
          rw [hhy', htr']
          exact hmono
        exact edgeRun_chain_bounded n e' s hwf' hmono' hin' (hbdf hmono)

/-- Witness for C9: the fresh 2×2 edge `edge4` satisfies the queue invariant
(empty queue) and grid monotonicity, so its six-round pop-score sequence is
monotone non-increasing. -/
theorem edge_pop_scores_monotone_witness :
    List.Chain' (· ≥ ·) (edgeRunScores 6 edge4) :=
  edge_pop_scores_monotone edge4 6
    ⟨fun p hp => absurd hp (List.not_mem_nil p), List.Pairwise.nil⟩ (by decide)
